import Mathlib

/-!
Shallow embedding of `src/psfmodels/_cuvec.py` (vectorial PSF computation).

Modelling conventions:
* Python floats are modelled by `ℝ`; a non-finite float (NaN or Inf) is
  modelled by `none : Option ℝ` (resp. `Option ℂ` for complex arrays), and
  every elementwise operation is strict in `none`, matching IEEE NaN
  propagation (`0 * nan = nan`, `nan + x = nan`, `np.max` with a NaN gives
  NaN, masked assignment overwrites NaN).
* `np.sqrt` / `np.arcsin` on a real array return NaN outside their domain
  (they do NOT promote to complex); this is modelled by `npSqrt` / `npArcsin`
  returning `none` there.
* Division by zero (`0/0` and `c/0`) produces a non-finite float (NaN or
  Inf) in NumPy; both are modelled by `none` (the claims only distinguish
  finite from non-finite values).
* Exceptions raised by the Python runtime are modelled by `Except PyErr`.
* The backend-provided special functions `j0`, `j1` and the interpolator
  `map_coordinates` come from the `cupy`/`jax`/`scipy` provider selected by
  the import fallback; they are taken as function parameters (`j0f`, `j1f`,
  `mapc`), exactly as the code is polymorphic over the array backend.
* Scalar divisions by a zero refractive index would raise
  `ZeroDivisionError` in Python; such configurations are outside every claim
  and those scalar divisions are modelled by total field division. The one
  place where this matters for a claim (`na / ni` inside `half_angle`) gets
  an explicit guard.
* The scalar-`zv` broadcast branch of `simpson` (`zv.ndim == 0`) is not
  modelled; `zv` is always a vector, as in every call site of this file.
-/

open Classical

noncomputable section

namespace PSF

/-- Python runtime exceptions that the modelled code can raise. -/
inductive PyErr
  | nameError
  | typeError
  | valueError

/-- Strict lifting of a binary operation to NaN-aware values: any `none`
(non-finite) operand poisons the result, as IEEE NaN does. -/
def omap2 {α β γ : Type} (f : α → β → γ) : Option α → Option β → Option γ
  | some a, some b => some (f a b)
  | none, _ => none
  | some _, none => none

/-- NumPy elementwise division: a zero denominator produces a non-finite
value (Inf or NaN), modelled as `none`; NaN operands propagate. -/
def oDiv {α : Type} [DivisionRing α] (a b : Option α) : Option α :=
  match a, b with
  | some x, some y => if y = 0 then none else some (x / y)
  | none, _ => none
  | some _, none => none

/-- `np.sum` over a 1-d array (a NaN poisons the sum). -/
def osum (l : List (Option ℂ)) : Option ℂ :=
  l.foldr (omap2 (· + ·)) (some 0)

/-- `np.sqrt` on a real array: NaN (`none`) for a negative argument. -/
def npSqrt (x : ℝ) : Option ℝ :=
  if x < 0 then none else some (Real.sqrt x)

/-- `np.arcsin` on a real argument: NaN (`none`) outside `[-1, 1]`. -/
def npArcsin (x : ℝ) : Option ℝ :=
  if |x| ≤ 1 then some (Real.arcsin x) else none

/-- `np.hypot`. -/
def npHypot (a b : ℝ) : ℝ :=
  Real.sqrt (a ^ 2 + b ^ 2)

/-- Python `int(x)` for a finite float: truncation toward zero. -/
def npInt (x : ℝ) : ℤ :=
  if 0 ≤ x then ⌊x⌋ else -⌊-x⌋

/-- `np.max` over a 1-d real array (all call sites are nonempty; `np.max` of
an empty array raises, which no claim reaches, so `[]` is given a junk
value). -/
def listMax : List ℝ → ℝ
  | [] => 0
  | x :: xs => xs.foldl max x

/-- `np.max` over a NaN-aware array: a NaN gives NaN (`none`). -/
def listMaxO : List (Option ℝ) → Option ℝ
  | [] => none
  | x :: xs => xs.foldl (omap2 max) x

/-- `np.linspace(a, b, n)` with `endpoint=True`, in exact arithmetic. -/
def linspace (a b : ℝ) (n : ℕ) : List ℝ :=
  if n = 1 then [a]
  else (List.range n).map fun (i : ℕ) => a + (i : ℝ) * ((b - a) / ((n : ℝ) - 1))

/-- The `Objective` dataclass: nine optical parameters with their Python
defaults.  Construction performs no validation, exactly as a `dataclass`. -/
structure Objective where
  na : ℝ := 1.4
  coverslip_ri : ℝ := 1.515
  coverslip_ri_spec : ℝ := 1.515
  immersion_medium_ri : ℝ := 1.515
  immersion_medium_ri_spec : ℝ := 1.515
  specimen_ri : ℝ := 1.47
  working_distance : ℝ := 150.0
  coverslip_thickness : ℝ := 170.0
  coverslip_thickness_spec : ℝ := 170.0

def Objective.NA (p : Objective) : ℝ := p.na

def Objective.ng (p : Objective) : ℝ := p.coverslip_ri

def Objective.ng0 (p : Objective) : ℝ := p.coverslip_ri_spec

def Objective.ni (p : Objective) : ℝ := p.immersion_medium_ri

def Objective.ni0 (p : Objective) : ℝ := p.immersion_medium_ri_spec

def Objective.ns (p : Objective) : ℝ := p.specimen_ri

def Objective.ti0 (p : Objective) : ℝ := p.working_distance * 1e-6

def Objective.tg (p : Objective) : ℝ := p.coverslip_thickness * 1e-6

def Objective.tg0 (p : Objective) : ℝ := p.coverslip_thickness_spec * 1e-6

/-- `np.arcsin(self.na / self.ni)`: NaN (`none`) when `na / ni` leaves
`[-1, 1]`.  A zero `ni` raises `ZeroDivisionError` in Python; that exceptional
case is also mapped to `none` (no claim reaches it). -/
def Objective.half_angle (p : Objective) : Option ℝ :=
  if p.ni = 0 then none else npArcsin (p.na / p.ni)

/-! Body of `simpson`, line by line.  Per θ-sample scalars are used where the
source broadcasts arrays; `sintheta`/`costheta` are inlined as
`Real.sin θ` / `Real.cos θ`. -/

/-- `nsroot = sqrt(ns**2 - ni**2 * sin(θ)**2)` (real sqrt: NaN beyond the
critical angle). -/
def nsroot (p : Objective) (θ : ℝ) : Option ℝ :=
  npSqrt (p.ns ^ 2 - p.ni ^ 2 * Real.sin θ ^ 2)

/-- `ngroot = sqrt(ng**2 - ni**2 * sin(θ)**2)`. -/
def ngroot (p : Objective) (θ : ℝ) : Option ℝ :=
  npSqrt (p.ng ^ 2 - p.ni ^ 2 * Real.sin θ ^ 2)

/-- `sqrt(ng0**2 - ni**2 * sin(θ)**2)`. -/
def ng0root (p : Objective) (θ : ℝ) : Option ℝ :=
  npSqrt (p.ng0 ^ 2 - p.ni ^ 2 * Real.sin θ ^ 2)

/-- `sqrt(ni0**2 - ni**2 * sin(θ)**2)`. -/
def ni0root (p : Objective) (θ : ℝ) : Option ℝ :=
  npSqrt (p.ni0 ^ 2 - p.ni ^ 2 * Real.sin θ ^ 2)

/-- `sqrtcostheta = sqrt(cos(θ)).astype(complex)` — note the complex cast
happens AFTER the real square root. -/
def sqrtcostheta (θ : ℝ) : Option ℂ :=
  (npSqrt (Real.cos θ)).map fun (v : ℝ) => (v : ℂ)

/-- The optical path difference
`L0 = ni*(ci - z)*cosθ + zp*nsroot + tg*ngroot - tg0*ng0root - ti0*ni0root`. -/
def L0 (p : Objective) (ci zp : ℝ) (z θ : ℝ) : Option ℝ :=
  omap2 (· - ·)
    (omap2 (· - ·)
      (omap2 (· + ·)
        (omap2 (· + ·)
          (some (p.ni * (ci - z) * Real.cos θ))
          ((nsroot p θ).map fun v => zp * v))
        ((ngroot p θ).map fun v => p.tg * v))
      ((ng0root p θ).map fun v => p.tg0 * v))
    ((ni0root p θ).map fun v => p.ti0 * v)

/-- `expW = exp(1j * wave_num * L0)`. -/
def expW (p : Objective) (ci zp k : ℝ) (z θ : ℝ) : Option ℂ :=
  (L0 p ci zp z θ).map fun (t : ℝ) =>
    Complex.exp (Complex.I * (k : ℂ) * (t : ℂ))

/-- `_simp_like`: `simp[::2] = 4; simp[1::2] = 2; simp[-1] = 1`.  The first
two strided assignments initialise every entry of the `empty_like` array; the
final entry is then overwritten with 1. -/
def simp_like (n : ℕ) : List ℝ :=
  (((List.range n).map fun i => if i % 2 = 0 then (4 : ℝ) else 2)).set (n - 1) 1

/-- Numerator shared by the Fresnel products:
`ts1ts2 = (4.0 * ni * costheta * ngroot).astype(complex)`. -/
def fresnel_num (p : Objective) (θ : ℝ) : Option ℂ :=
  (ngroot p θ).map fun g => ((4 * p.ni * Real.cos θ * g : ℝ) : ℂ)

/-- `tp1tp2 = fresnel_num / ((ng*cosθ + ni/ng*ngroot) * (ns/ng*ngroot + ng/ns*nsroot))`. -/
def tp1tp2 (p : Objective) (θ : ℝ) : Option ℂ :=
  oDiv (fresnel_num p θ)
    (omap2 (· * ·)
      ((ngroot p θ).map fun g => ((p.ng * Real.cos θ + p.ni / p.ng * g : ℝ) : ℂ))
      (omap2 (fun g s => ((p.ns / p.ng * g + p.ng / p.ns * s : ℝ) : ℂ))
        (ngroot p θ) (nsroot p θ)))

/-- `ts1ts2 = fresnel_num / ((ni*cosθ + ngroot) * (ngroot + nsroot))`. -/
def ts1ts2 (p : Objective) (θ : ℝ) : Option ℂ :=
  oDiv (fresnel_num p θ)
    (omap2 (fun g s => (((p.ni * Real.cos θ + g) * (g + s) : ℝ) : ℂ))
      (ngroot p θ) (nsroot p θ))

/-- `bessel_0 = simp * j0(constJ*sinθ) * sinθ * sqrtcostheta`; `w` is the
Simpson weight of this θ sample. -/
def bessel_0 (j0f : ℝ → ℝ) (w cJ θ : ℝ) : Option ℂ :=
  (sqrtcostheta θ).map fun s =>
    (w : ℂ) * (j0f (cJ * Real.sin θ) : ℂ) * (Real.sin θ : ℂ) * s

/-- `bessel_1 = simp * j1(constJ*sinθ) * sinθ * sqrtcostheta`. -/
def bessel_1 (j1f : ℝ → ℝ) (w cJ θ : ℝ) : Option ℂ :=
  (sqrtcostheta θ).map fun s =>
    (w : ℂ) * (j1f (cJ * Real.sin θ) : ℂ) * (Real.sin θ : ℂ) * s

/-- `bessel_2 = 2.0 * bessel_1 / (constJ*sinθ) - bessel_0`, then
`bessel_2[constJ == 0] = 0` (the in-place masked assignment is expressed as
the branch on `cJ = 0`; it overwrites whatever the division produced there). -/
def bessel_2 (j0f j1f : ℝ → ℝ) (w cJ θ : ℝ) : Option ℂ :=
  if cJ = 0 then some 0
  else
    omap2 (· - ·)
      (oDiv ((bessel_1 j1f w cJ θ).map fun b => 2 * b)
        (some ((cJ * Real.sin θ : ℝ) : ℂ)))
      (bessel_0 j0f w cJ θ)

/-- Transmission factor applied to channel 0: `ts1ts2 + tp1tp2 / ns * nsroot`. -/
def tcoef0 (p : Objective) (θ : ℝ) : Option ℂ :=
  omap2 (· + ·) (ts1ts2 p θ)
    (omap2 (· * ·) (oDiv (tp1tp2 p θ) (some (p.ns : ℂ)))
      ((nsroot p θ).map fun (v : ℝ) => (v : ℂ)))

/-- Transmission factor applied to channel 1: `tp1tp2 * ni / ns * sinθ`. -/
def tcoef1 (p : Objective) (θ : ℝ) : Option ℂ :=
  (oDiv ((tp1tp2 p θ).map fun t => t * (p.ni : ℂ)) (some (p.ns : ℂ))).map
    fun t => t * ((Real.sin θ : ℝ) : ℂ)

/-- Transmission factor applied to channel 2: `ts1ts2 - tp1tp2 / ns * nsroot`. -/
def tcoef2 (p : Objective) (θ : ℝ) : Option ℂ :=
  omap2 (· - ·) (ts1ts2 p θ)
    (omap2 (· * ·) (oDiv (tp1tp2 p θ) (some (p.ns : ℂ)))
      ((nsroot p θ).map fun (v : ℝ) => (v : ℂ)))

/-- `bessel_0 *= tcoef0` after the masked fix of `bessel_2`. -/
def scaled_0 (p : Objective) (j0f : ℝ → ℝ) (w cJ θ : ℝ) : Option ℂ :=
  omap2 (· * ·) (bessel_0 j0f w cJ θ) (tcoef0 p θ)

/-- `bessel_1 *= tcoef1`. -/
def scaled_1 (p : Objective) (j1f : ℝ → ℝ) (w cJ θ : ℝ) : Option ℂ :=
  omap2 (· * ·) (bessel_1 j1f w cJ θ) (tcoef1 p θ)

/-- `bessel_2 *= tcoef2`. -/
def scaled_2 (p : Objective) (j0f j1f : ℝ → ℝ) (w cJ θ : ℝ) : Option ℂ :=
  omap2 (· * ·) (bessel_2 j0f j1f w cJ θ) (tcoef2 p θ)

/-- The Simpson weight of the θ sample with index `j`. -/
def sweight (n j : ℕ) : ℝ :=
  (simp_like n).getD j 0

/-- `(expW * bessel_0).sum(-1)` for one `(z, r)` cell: the θ-wise weighted,
phase-modulated sum of channel 0, before taking the magnitude. -/
def I0sum (p : Objective) (j0f : ℝ → ℝ) (theta : List ℝ) (ci zp k cJ z : ℝ) :
    Option ℂ :=
  osum ((List.range theta.length).map fun j =>
    omap2 (· * ·) (expW p ci zp k z (theta.getD j 0))
      (scaled_0 p j0f (sweight theta.length j) cJ (theta.getD j 0)))

/-- `(expW * bessel_1).sum(-1)` for one `(z, r)` cell. -/
def I1sum (p : Objective) (j1f : ℝ → ℝ) (theta : List ℝ) (ci zp k cJ z : ℝ) :
    Option ℂ :=
  osum ((List.range theta.length).map fun j =>
    omap2 (· * ·) (expW p ci zp k z (theta.getD j 0))
      (scaled_1 p j1f (sweight theta.length j) cJ (theta.getD j 0)))

/-- `(expW * bessel_2).sum(-1)` for one `(z, r)` cell. -/
def I2sum (p : Objective) (j0f j1f : ℝ → ℝ) (theta : List ℝ) (ci zp k cJ z : ℝ) :
    Option ℂ :=
  osum ((List.range theta.length).map fun j =>
    omap2 (· * ·) (expW p ci zp k z (theta.getD j 0))
      (scaled_2 p j0f j1f (sweight theta.length j) cJ (theta.getD j 0)))

/-- `sum_I0 = abs((expW * bessel_0).sum(-1))`. -/
def sum_I0 (p : Objective) (j0f : ℝ → ℝ) (theta : List ℝ) (ci zp k cJ z : ℝ) :
    Option ℝ :=
  (I0sum p j0f theta ci zp k cJ z).map Complex.abs

/-- `sum_I1 = abs((expW * bessel_1).sum(-1))`. -/
def sum_I1 (p : Objective) (j1f : ℝ → ℝ) (theta : List ℝ) (ci zp k cJ z : ℝ) :
    Option ℝ :=
  (I1sum p j1f theta ci zp k cJ z).map Complex.abs

/-- `sum_I2 = abs((expW * bessel_2).sum(-1))`. -/
def sum_I2 (p : Objective) (j0f j1f : ℝ → ℝ) (theta : List ℝ) (ci zp k cJ z : ℝ) :
    Option ℝ :=
  (I2sum p j0f j1f theta ci zp k cJ z).map Complex.abs

/-- One `(z, r)` cell of the value returned by `simpson`:
`real(sum_I0**2 + 2.0*sum_I1**2 + sum_I2**2)` (`real` is the identity on the
already-real array). -/
def simpsonEntry (p : Objective) (j0f j1f : ℝ → ℝ) (theta : List ℝ)
    (ci zp k cJ z : ℝ) : Option ℝ :=
  omap2 (· + ·)
    (omap2 (· + ·)
      ((sum_I0 p j0f theta ci zp k cJ z).map fun a => a ^ 2)
      ((sum_I1 p j1f theta ci zp k cJ z).map fun a => 2 * a ^ 2))
    ((sum_I2 p j0f j1f theta ci zp k cJ z).map fun a => a ^ 2)

/-- `simpson(p, theta, constJ, zv, ci, zp, wave_num)`: the `(|zv|, |constJ|)`
array of cells. -/
def simpson (p : Objective) (j0f j1f : ℝ → ℝ) (theta constJ zv : List ℝ)
    (ci zp k : ℝ) : List (List (Option ℝ)) :=
  zv.map fun z => constJ.map fun cJ => simpsonEntry p j0f j1f theta ci zp k cJ z

/-! Body of `vectorial_rz`, with each intermediate exposed as a definition. -/

/-- `wave_num = 2 * pi / (wvl * 1e-6)`. -/
def rz_wave_num (wvl : ℝ) : ℝ :=
  2 * Real.pi / (wvl * 1e-6)

/-- `xystep_ = dxy * 1e-6`. -/
def rz_xystep (dxy : ℝ) : ℝ :=
  dxy * 1e-6

/-- `xymax = (nx * sf - 1) // 2` (Python floor division). -/
def rz_xymax (nx sf : ℕ) : ℤ :=
  Int.fdiv ((nx : ℤ) * (sf : ℤ) - 1) 2

/-- `rn = 1 + int(sqrt(xpos*xpos + ypos*ypos))` with the positions already
rescaled by `sf / xystep_`. -/
def rz_rn (pos : ℝ × ℝ × ℝ) (sf : ℕ) (dxy : ℝ) : ℤ :=
  1 + npInt (Real.sqrt ((pos.1 * sf / rz_xystep dxy) ^ 2 +
    (pos.2.1 * sf / rz_xystep dxy) ^ 2))

/-- `rmax = int(ceil(sqrt(2.0) * xymax) + rn + 1)`. -/
def rz_rmax (nx sf : ℕ) (pos : ℝ × ℝ × ℝ) (dxy : ℝ) : ℤ :=
  ⌈Real.sqrt 2 * ((rz_xymax nx sf : ℤ) : ℝ)⌉ + rz_rn pos sf dxy + 1

/-- `rvec = arange(rmax) * xystep_ / sf`. -/
def rz_rvec (nx sf : ℕ) (pos : ℝ × ℝ × ℝ) (dxy : ℝ) : List ℝ :=
  (List.range (rz_rmax nx sf pos dxy).toNat).map fun (i : ℕ) =>
    (i : ℝ) * rz_xystep dxy / (sf : ℝ)

/-- `constJ = wave_num * rvec * ni`. -/
def rz_constJ (nx sf : ℕ) (pos : ℝ × ℝ × ℝ) (dxy wvl : ℝ) (p : Objective) :
    List ℝ :=
  (rz_rvec nx sf pos dxy).map fun r => rz_wave_num wvl * r * p.ni

/-- `ci = zpos * (1 - ni/ns) + ni * (tg0/ng0 + ti0/ni0 - tg/ng)`. -/
def rz_ci (p : Objective) (zpos : ℝ) : ℝ :=
  zpos * (1 - p.ni / p.ns) + p.ni * (p.tg0 / p.ng0 + p.ti0 / p.ni0 - p.tg / p.ng)

/-- `nSamples = maximum(4 * int(1.0 + half_angle * max(constJ) / pi), 60)`. -/
def rz_nSamples (ha : ℝ) (constJ : List ℝ) : ℤ :=
  max (4 * npInt (1 + ha * listMax constJ / Real.pi)) 60

/-- `step = half_angle / nSamples`. -/
def rz_step (ha : ℝ) (constJ : List ℝ) : ℝ :=
  ha / ((rz_nSamples ha constJ : ℤ) : ℝ)

/-- `theta = arange(1, nSamples + 1) * step`. -/
def rz_theta (ha : ℝ) (constJ : List ℝ) : List ℝ :=
  (List.range (rz_nSamples ha constJ).toNat).map fun (j : ℕ) =>
    ((j : ℝ) + 1) * rz_step ha constJ

/-- `vectorial_rz(zv, nx, pos, dxy, wvl, params, sf)`.  A NaN `half_angle`
reaches `int(...)` inside the `nSamples` line, where Python raises
(`ValueError: cannot convert float NaN to integer`). -/
def vectorial_rz (j0f j1f : ℝ → ℝ) (zv : List ℝ) (nx : ℕ) (pos : ℝ × ℝ × ℝ)
    (dxy wvl : ℝ) (p : Objective) (sf : ℕ) :
    Except PyErr (List (List (Option ℝ))) :=
  match p.half_angle with
  | none => .error .valueError
  | some ha =>
    .ok ((simpson p j0f j1f (rz_theta ha (rz_constJ nx sf pos dxy wvl p))
          (rz_constJ nx sf pos dxy wvl p) zv (rz_ci p pos.2.2) pos.2.2
          (rz_wave_num wvl)).map
      (List.map (Option.map fun v =>
        8 * Real.pi / 3 * v *
          (rz_step ha (rz_constJ nx sf pos dxy wvl p) / (3 * (sf : ℝ))) ^ 2)))

/-- `radius_map(shape, off)`.  When `off is None` the `else` branch rebinds
`off = (0, 0)` but never assigns `offy`/`offx`, so the next line raises
`NameError: name offy is not defined`. -/
def radius_map (shape : ℕ × ℕ) (off : Option (ℝ × ℝ)) :
    Except PyErr (ℕ → ℕ → ℝ) :=
  match off with
  | none => .error .nameError
  | some o =>
    .ok fun y x =>
      npHypot ((y : ℝ) - ((shape.1 : ℝ) - 1) / 2 - o.1)
        ((x : ℝ) - ((shape.2 : ℝ) - 1) / 2 - o.2)

/-- Type of the backend `map_coordinates` collaborator restricted to how
`rz_to_xyz` calls it: order-1 interpolation of a 2-d array at one fractional
`(z, r)` coordinate. -/
def MapC : Type :=
  List (List (Option ℝ)) → ℝ → ℝ → Option ℝ

/-- `rz_to_xyz(rz, xyshape, sf, off)`: scale the radius map by `sf`, then
interpolate each z slice of `rz` at every cell. -/
def rz_to_xyz (mapc : MapC) (rz : List (List (Option ℝ))) (xyshape : ℕ × ℕ)
    (sf : ℕ) (off : Option (ℝ × ℝ)) :
    Except PyErr (List (List (List (Option ℝ)))) :=
  match radius_map xyshape off with
  | .error e => .error e
  | .ok rmap =>
    .ok ((List.range rz.length).map fun (z : ℕ) =>
      (List.range xyshape.1).map fun y =>
        (List.range xyshape.2).map fun x =>
          mapc rz (z : ℝ) (rmap y x * (sf : ℝ)))

/-- `np.max` over the whole volume (a NaN anywhere gives NaN). -/
def volMax (v : List (List (List (Option ℝ)))) : Option ℝ :=
  listMaxO v.flatten.flatten

/-- `ny = ny or nx`: Python falsiness maps a missing OR zero `ny` to `nx`. -/
def pyOr (ny : Option ℕ) (nx : ℕ) : ℕ :=
  match ny with
  | none => nx
  | some v => if v = 0 then nx else v

/-- `vectorial_psf(zv, nx, ny, pos, dxy, wvl, params, sf, normalize)`.
`params` is passed as the already-built `Objective`. -/
def vectorial_psf (mapc : MapC) (j0f j1f : ℝ → ℝ) (zvIn : List ℝ) (nx : ℕ)
    (nyIn : Option ℕ) (pos : ℝ × ℝ × ℝ) (dxy wvl : ℝ) (p : Objective) (sf : ℕ)
    (normalize : Bool) : Except PyErr (List (List (List (Option ℝ)))) :=
  match vectorial_rz j0f j1f (zvIn.map fun z => z * 1e-6)
      (max (pyOr nyIn nx) nx) pos dxy wvl p sf with
  | .error e => .error e
  | .ok rz =>
    match rz_to_xyz mapc rz (pyOr nyIn nx, nx) sf
        (some (pos.1 / (dxy * 1e-6), pos.2.1 / (dxy * 1e-6))) with
    | .error e => .error e
    | .ok psf =>
      .ok (if normalize then
        psf.map (List.map (List.map fun e => oDiv e (volMax psf)))
      else psf)

/-- `_centered_zv(nz, dz, pz)`: `linspace(-lim + pz, lim + pz, nz)` with
`lim = (nz - 1) * dz / 2`. -/
def centered_zv (nz : ℕ) (dz pz : ℝ) : List ℝ :=
  linspace (-(((nz : ℝ) - 1) * dz / 2) + pz) (((nz : ℝ) - 1) * dz / 2 + pz) nz

/-- The keyword arguments accepted by `vectorial_psf`, with their defaults,
plus the `pz` key that `vectorial_psf_centered` reads from `**kwargs`. -/
structure PsfKwargs where
  nx : ℕ := 31
  ny : Option ℕ := none
  pos : ℝ × ℝ × ℝ := (0, 0, 0)
  dxy : ℝ := 0.05
  wvl : ℝ := 0.6
  params : Objective := {}
  sf : ℕ := 3
  normalize : Bool := true
  pz : Option ℝ := none

/-- `vectorial_psf(zv, **kwargs)`: Python rejects the call with `TypeError`
if the kwargs still contain the unexpected key `pz`. -/
def vectorial_psf_kwargs (mapc : MapC) (j0f j1f : ℝ → ℝ) (zv : List ℝ)
    (kw : PsfKwargs) : Except PyErr (List (List (List (Option ℝ)))) :=
  match kw.pz with
  | some _ => .error .typeError
  | none =>
    vectorial_psf mapc j0f j1f zv kw.nx kw.ny kw.pos kw.dxy kw.wvl kw.params
      kw.sf kw.normalize

/-- `vectorial_psf_centered(nz, dz, **kwargs)`: builds the centered z vector
from `kwargs.get("pz", 0)` and forwards ALL kwargs (including `pz`, which is
never popped) to `vectorial_psf`. -/
def vectorial_psf_centered (mapc : MapC) (j0f j1f : ℝ → ℝ) (nz : ℕ) (dz : ℝ)
    (kw : PsfKwargs) : Except PyErr (List (List (List (Option ℝ)))) :=
  vectorial_psf_kwargs mapc j0f j1f (centered_zv nz dz (kw.pz.getD 0)) kw

/-! Helper lemmas about the NaN-aware combinators. -/

@[simp] theorem omap2_none_left {α β γ : Type} (f : α → β → γ) (b : Option β) :
    omap2 f none b = none := by
  cases b <;> rfl

@[simp] theorem omap2_none_right {α β γ : Type} (f : α → β → γ) (a : Option α) :
    omap2 f a none = none := by
  cases a <;> rfl

@[simp] theorem omap2_some_some {α β γ : Type} (f : α → β → γ) (a : α) (b : β) :
    omap2 f (some a) (some b) = some (f a b) := rfl

@[simp] theorem oDiv_none_left {α : Type} [DivisionRing α] (b : Option α) :
    oDiv none b = none := by
  cases b <;> rfl

@[simp] theorem oDiv_none_right {α : Type} [DivisionRing α] (a : Option α) :
    oDiv a none = none := by
  cases a <;> rfl

@[simp] theorem oDiv_some_some {α : Type} [DivisionRing α] (a b : α) :
    oDiv (some a) (some b) = if b = 0 then none else some (a / b) := rfl

@[simp] theorem osum_nil : osum [] = some 0 := rfl

@[simp] theorem osum_cons (x : Option ℂ) (l : List (Option ℂ)) :
    osum (x :: l) = omap2 (· + ·) x (osum l) := rfl

theorem osum_eq_none {l : List (Option ℂ)} (h : none ∈ l) : osum l = none := by
  induction l with
  | nil => cases h
  | cons x xs ih =>
    rcases List.mem_cons.1 h with h1 | h1
    · rw [osum_cons, ← h1, omap2_none_left]
    · rw [osum_cons, ih h1, omap2_none_right]

theorem osum_eq_zero {l : List (Option ℂ)} (h : ∀ x ∈ l, x = some 0) :
    osum l = some 0 := by
  induction l with
  | nil => rfl
  | cons x xs ih =>
    rw [osum_cons, h x (List.mem_cons_self x xs),
      ih fun y hy => h y (List.mem_cons_of_mem x hy), omap2_some_some, add_zero]

theorem half_angle_some (p : Objective) (h0 : p.ni ≠ 0) (h1 : |p.na / p.ni| ≤ 1) :
    p.half_angle = some (Real.arcsin (p.na / p.ni)) := by
  rw [Objective.half_angle, if_neg h0, npArcsin, if_pos h1]

/-! Claim theorems. -/

/-- C4: the claim says `radius_map` works for every offset argument including
an absent one, defaulting the offset to `(0, 0)`.  In fact the no-offset
branch never binds `offy`/`offx` and raises `NameError`; with an explicit
offset the returned array is the claimed Euclidean-distance map. -/
theorem c4_radius_map :
    radius_map (5, 5) none = .error .nameError ∧
      ∀ (ny nx : ℕ) (oy ox : ℝ),
        radius_map (ny, nx) (some (oy, ox)) =
          .ok fun y x =>
            npHypot ((y : ℝ) - ((ny : ℝ) - 1) / 2 - oy)
              ((x : ℝ) - ((nx : ℝ) - 1) / 2 - ox) :=
  ⟨rfl, fun _ _ _ _ => rfl⟩

/-- C2 (counterexample): an `Objective` with `NA = 1.6 > ni = 1.0` is
constructed without any error, and its half-angle silently evaluates to NaN
(`none`) instead of failing fast with a descriptive configuration error. -/
theorem c2_counterexample :
    ({ na := 1.6, immersion_medium_ri := 1.0 } : Objective).half_angle = none := by
  rw [Objective.half_angle, if_neg (by norm_num [Objective.ni]), npArcsin, if_neg]
  rw [abs_of_nonneg] <;> norm_num [Objective.ni]

/-- C2 (amended): no validation is performed at construction; whenever
`0 < ni < NA` the half-angle is NaN (`none`), and the NaN propagates silently
until `vectorial_rz` converts the NaN-derived sample count with `int(...)`,
which raises a (non-descriptive) `ValueError`. -/
theorem c2_amended (p : Objective) (hni : 0 < p.ni) (hna : p.ni < p.na) :
    p.half_angle = none ∧
      ∀ (j0f j1f : ℝ → ℝ) (zv : List ℝ) (nx : ℕ) (pos : ℝ × ℝ × ℝ)
        (dxy wvl : ℝ) (sf : ℕ),
        vectorial_rz j0f j1f zv nx pos dxy wvl p sf = .error .valueError := by
  have habs : 1 < |p.na / p.ni| := by
    rw [abs_of_pos (div_pos (hni.trans hna) hni)]
    exact (one_lt_div hni).2 hna
  have h : p.half_angle = none := by
    rw [Objective.half_angle, if_neg (ne_of_gt hni), npArcsin,
      if_neg (not_le.mpr habs)]
  exact ⟨h, fun _ _ _ _ _ _ _ _ => by rw [vectorial_rz, h]⟩

/-- C2 (witness for the amended theorem). -/
theorem c2_amended_witness :
    ({ na := 2.0, immersion_medium_ri := 1.0 } : Objective).half_angle = none ∧
      vectorial_rz (fun _ => 0) (fun _ => 0) [0] 31 (0, 0, 0) 0.05 0.6
        { na := 2.0, immersion_medium_ri := 1.0 } 3 = .error .valueError := by
  have h := c2_amended { na := 2.0, immersion_medium_ri := 1.0 }
    (by norm_num [Objective.ni]) (by norm_num [Objective.ni])
  exact ⟨h.1, h.2 _ _ _ _ _ _ _ _⟩

/-- C3: passing `pz` to `vectorial_psf_centered` raises `TypeError`, because
`pz` is read via `kwargs.get` but never removed before forwarding `**kwargs`
to `vectorial_psf`, which has no `pz` parameter.  The z-sampling vector
itself does satisfy the claimed formula `zv[i] = -((nz-1)*dz)/2 + pz + i*dz`
for every `nz ≥ 1`. -/
theorem c3_centered_pz (mapc : MapC) (j0f j1f : ℝ → ℝ) :
    vectorial_psf_centered mapc j0f j1f 3 0.1 { pz := some 0.5 } =
        .error .typeError ∧
      ∀ (nz : ℕ) (dz pz : ℝ), 1 ≤ nz → ∀ i, i < nz →
        (centered_zv nz dz pz).get? i =
          some (-(((nz : ℝ) - 1) * dz) / 2 + pz + (i : ℝ) * dz) := by
  refine ⟨rfl, ?_⟩
  intro nz dz pz h1 i hi
  rw [centered_zv, linspace]
  by_cases hnz : nz = 1
  · subst hnz
    have hi0 : i = 0 := by omega
    subst hi0
    rw [if_pos rfl]
    norm_num
  · rw [if_neg hnz, List.get?_eq_getElem?, List.getElem?_map,
      List.getElem?_range hi, Option.map_some']
    have h2 : (2 : ℕ) ≤ nz := by omega
    have hne : ((nz : ℝ) - 1) ≠ 0 := by
      have : (2 : ℝ) ≤ (nz : ℝ) := by exact_mod_cast h2
      nlinarith
    have hstep : (((nz : ℝ) - 1) * dz / 2 + pz -
        (-(((nz : ℝ) - 1) * dz / 2) + pz)) / ((nz : ℝ) - 1) = dz := by
      field_simp
    rw [hstep]
    congr 1
    ring

/-- C3 (witness: the z-vector formula at `nz = 3`, `dz = 0.1`, `pz = 0.5`,
`i = 1`). -/
theorem c3_centered_pz_witness :
    (centered_zv 3 0.1 0.5).get? 1 =
      some (-((((3 : ℕ) : ℝ) - 1) * 0.1) / 2 + 0.5 + ((1 : ℕ) : ℝ) * 0.1) :=
  (c3_centered_pz (fun _ _ _ => none) (fun _ => 0) (fun _ => 0)).2 3 0.1 0.5
    (by norm_num) 1 (by norm_num)

/-- C7: the Simpson weight vector built by `_simp_like` assigns 4 to even
indices, 2 to odd indices, and forces the final weight (index `n - 1`) to 1,
overriding the alternating pattern; the `8π/3` and `(step/(3·sf))²` scales
are applied by the caller `vectorial_rz`, not inside `simpson`. -/
theorem c7_simpson_weights :
    (∀ n i, 2 ≤ n → i < n →
        (simp_like n).get? i =
          some (if i = n - 1 then (1 : ℝ) else if i % 2 = 0 then 4 else 2)) ∧
      ∀ (j0f j1f : ℝ → ℝ) (zv : List ℝ) (nx : ℕ) (pos : ℝ × ℝ × ℝ)
        (dxy wvl : ℝ) (p : Objective) (sf : ℕ) (ha : ℝ),
        p.half_angle = some ha →
        vectorial_rz j0f j1f zv nx pos dxy wvl p sf =
          .ok ((simpson p j0f j1f (rz_theta ha (rz_constJ nx sf pos dxy wvl p))
                (rz_constJ nx sf pos dxy wvl p) zv (rz_ci p pos.2.2) pos.2.2
                (rz_wave_num wvl)).map
            (List.map (Option.map fun v =>
              8 * Real.pi / 3 * v *
                (rz_step ha (rz_constJ nx sf pos dxy wvl p) /
                  (3 * (sf : ℝ))) ^ 2))) := by
  constructor
  · intro n i h2 hi
    by_cases hlast : i = n - 1
    · subst hlast
      rw [simp_like, List.get?_eq_getElem?,
        List.getElem?_set_eq_of_lt _ (by rw [List.length_map, List.length_range]; omega),
        if_pos rfl]
    · rw [simp_like, List.get?_eq_getElem?,
        List.getElem?_set_ne fun hc => hlast hc.symm, List.getElem?_map,
        List.getElem?_range hi, Option.map_some', if_neg hlast]
  · intro j0f j1f zv nx pos dxy wvl p sf ha hha
    rw [vectorial_rz, hha]

/-- C7 (witness): at `n = 5` the final weight (an even index, which the
alternating pattern would set to 4) is forced to 1, and `vectorial_rz`
applies the caller-side scale for the default objective. -/
theorem c7_simpson_weights_witness :
    (simp_like 5).get? 4 =
        some (if 4 = 5 - 1 then (1 : ℝ) else if 4 % 2 = 0 then 4 else 2) ∧
      ∃ M, vectorial_rz (fun _ => 0) (fun _ => 0) [0] 31 (0, 0, 0) 0.05 0.6
        {} 3 = .ok M := by
  have h := c7_simpson_weights
  refine ⟨h.1 5 4 (by norm_num) (by norm_num), ?_⟩
  have hha : ({} : Objective).half_angle =
      some (Real.arcsin (({} : Objective).na / ({} : Objective).ni)) :=
    half_angle_some {} (by norm_num [Objective.ni])
      (by rw [abs_of_nonneg (by norm_num [Objective.ni])]
          norm_num [Objective.ni])
  exact ⟨_, h.2 _ _ _ _ _ _ _ _ _ _ hha⟩

/-- C5: for every z and angle sample θ (within the domain of the real square
roots), the optical path difference computed by the integrator equals
`ni·(ci−z)·cosθ + zp·√(ns²−ni²sin²θ) + tg·√(ng²−ni²sin²θ)
 − tg0·√(ng0²−ni²sin²θ) − ti0·√(ni0²−ni²sin²θ)`,
and the phase kernel is `exp(i·k·L0)`. -/
theorem c5_L0_formula (p : Objective) (ci zp k z θ : ℝ)
    (h1 : 0 ≤ p.ns ^ 2 - p.ni ^ 2 * Real.sin θ ^ 2)
    (h2 : 0 ≤ p.ng ^ 2 - p.ni ^ 2 * Real.sin θ ^ 2)
    (h3 : 0 ≤ p.ng0 ^ 2 - p.ni ^ 2 * Real.sin θ ^ 2)
    (h4 : 0 ≤ p.ni0 ^ 2 - p.ni ^ 2 * Real.sin θ ^ 2) :
    L0 p ci zp z θ =
        some (p.ni * (ci - z) * Real.cos θ +
          zp * Real.sqrt (p.ns ^ 2 - p.ni ^ 2 * Real.sin θ ^ 2) +
          p.tg * Real.sqrt (p.ng ^ 2 - p.ni ^ 2 * Real.sin θ ^ 2) -
          p.tg0 * Real.sqrt (p.ng0 ^ 2 - p.ni ^ 2 * Real.sin θ ^ 2) -
          p.ti0 * Real.sqrt (p.ni0 ^ 2 - p.ni ^ 2 * Real.sin θ ^ 2)) ∧
      expW p ci zp k z θ =
        some (Complex.exp (Complex.I * (k : ℂ) *
          ((p.ni * (ci - z) * Real.cos θ +
            zp * Real.sqrt (p.ns ^ 2 - p.ni ^ 2 * Real.sin θ ^ 2) +
            p.tg * Real.sqrt (p.ng ^ 2 - p.ni ^ 2 * Real.sin θ ^ 2) -
            p.tg0 * Real.sqrt (p.ng0 ^ 2 - p.ni ^ 2 * Real.sin θ ^ 2) -
            p.ti0 * Real.sqrt (p.ni0 ^ 2 - p.ni ^ 2 * Real.sin θ ^ 2) : ℝ) : ℂ))) := by
  have e1 : nsroot p θ =
      some (Real.sqrt (p.ns ^ 2 - p.ni ^ 2 * Real.sin θ ^ 2)) := by
    rw [nsroot, npSqrt, if_neg (not_lt.mpr h1)]
  have e2 : ngroot p θ =
      some (Real.sqrt (p.ng ^ 2 - p.ni ^ 2 * Real.sin θ ^ 2)) := by
    rw [ngroot, npSqrt, if_neg (not_lt.mpr h2)]
  have e3 : ng0root p θ =
      some (Real.sqrt (p.ng0 ^ 2 - p.ni ^ 2 * Real.sin θ ^ 2)) := by
    rw [ng0root, npSqrt, if_neg (not_lt.mpr h3)]
  have e4 : ni0root p θ =
      some (Real.sqrt (p.ni0 ^ 2 - p.ni ^ 2 * Real.sin θ ^ 2)) := by
    rw [ni0root, npSqrt, if_neg (not_lt.mpr h4)]
  have hL : L0 p ci zp z θ =
      some (p.ni * (ci - z) * Real.cos θ +
        zp * Real.sqrt (p.ns ^ 2 - p.ni ^ 2 * Real.sin θ ^ 2) +
        p.tg * Real.sqrt (p.ng ^ 2 - p.ni ^ 2 * Real.sin θ ^ 2) -
        p.tg0 * Real.sqrt (p.ng0 ^ 2 - p.ni ^ 2 * Real.sin θ ^ 2) -
        p.ti0 * Real.sqrt (p.ni0 ^ 2 - p.ni ^ 2 * Real.sin θ ^ 2)) := by
    rw [L0, e1, e2, e3, e4]
    simp only [Option.map_some', omap2_some_some]
  exact ⟨hL, by rw [expW, hL, Option.map_some']⟩

/-- C5 (witness at the default objective, θ = 0, ci = 1, zp = 2, k = 1,
z = 3). -/
theorem c5_L0_formula_witness :
    L0 {} 1 2 3 0 =
        some (({} : Objective).ni * (1 - 3) * Real.cos 0 +
          2 * Real.sqrt (({} : Objective).ns ^ 2 -
            ({} : Objective).ni ^ 2 * Real.sin 0 ^ 2) +
          ({} : Objective).tg * Real.sqrt (({} : Objective).ng ^ 2 -
            ({} : Objective).ni ^ 2 * Real.sin 0 ^ 2) -
          ({} : Objective).tg0 * Real.sqrt (({} : Objective).ng0 ^ 2 -
            ({} : Objective).ni ^ 2 * Real.sin 0 ^ 2) -
          ({} : Objective).ti0 * Real.sqrt (({} : Objective).ni0 ^ 2 -
            ({} : Objective).ni ^ 2 * Real.sin 0 ^ 2)) ∧
      expW {} 1 2 1 3 0 =
        some (Complex.exp (Complex.I * ((1 : ℝ) : ℂ) *
          ((({} : Objective).ni * (1 - 3) * Real.cos 0 +
            2 * Real.sqrt (({} : Objective).ns ^ 2 -
              ({} : Objective).ni ^ 2 * Real.sin 0 ^ 2) +
            ({} : Objective).tg * Real.sqrt (({} : Objective).ng ^ 2 -
              ({} : Objective).ni ^ 2 * Real.sin 0 ^ 2) -
            ({} : Objective).tg0 * Real.sqrt (({} : Objective).ng0 ^ 2 -
              ({} : Objective).ni ^ 2 * Real.sin 0 ^ 2) -
            ({} : Objective).ti0 * Real.sqrt (({} : Objective).ni0 ^ 2 -
              ({} : Objective).ni ^ 2 * Real.sin 0 ^ 2) : ℝ) : ℂ))) :=
  c5_L0_formula {} 1 2 1 3 0
    (by norm_num [Objective.ns, Objective.ni, Real.sin_zero])
    (by norm_num [Objective.ng, Objective.ni, Real.sin_zero])
    (by norm_num [Objective.ng0, Objective.ni, Real.sin_zero])
    (by norm_num [Objective.ni0, Objective.ni, Real.sin_zero])

/-- C6 (counterexample): at the angle sample θ = 0 with `constJ = 1` the
Bessel argument `x = constJ·sinθ` is 0, yet the second-order channel is NOT
set to 0 there — the mask only tests `constJ == 0`, so the entry keeps the
NaN produced by the division `0/0`. -/
theorem c6_counterexample :
    (1 : ℝ) * Real.sin 0 = 0 ∧
      bessel_2 (fun _ => 0) (fun _ => 0) 1 1 0 = none := by
  refine ⟨by rw [Real.sin_zero, mul_zero], ?_⟩
  rw [bessel_2, if_neg one_ne_zero]
  have hb : bessel_1 (fun _ => (0 : ℝ)) 1 1 0 =
      some (((1 : ℝ) : ℂ) * ((0 : ℝ) : ℂ) * ((Real.sin 0 : ℝ) : ℂ) *
        ((Real.sqrt (Real.cos 0) : ℝ) : ℂ)) := by
    rw [bessel_1, sqrtcostheta, npSqrt, if_neg (by norm_num [Real.cos_zero]),
      Option.map_some', Option.map_some']
  rw [hb, Option.map_some']
  have hden : (((1 : ℝ) * Real.sin 0 : ℝ) : ℂ) = 0 := by
    rw [Real.sin_zero, mul_zero, Complex.ofReal_zero]
  rw [hden, oDiv_some_some, if_pos rfl, omap2_none_left]

/-- C6 (amended): the second-order channel equals the recurrence
`J2 = 2·J1/x − J0` (times the common weight factor `w·sinθ·√cosθ`) wherever
`x = constJ·sinθ ≠ 0`; the explicit zero override is keyed on `constJ = 0`
(radius 0), not on `x = 0`; and at radius exactly 0 the channel contributes 0
to the θ-sum for every z whenever the phase and transmission factors are
finite. -/
theorem c6_amended :
    (∀ (j0f j1f : ℝ → ℝ) (w cJ θ : ℝ), cJ * Real.sin θ ≠ 0 → 0 ≤ Real.cos θ →
        bessel_2 j0f j1f w cJ θ =
          some (((w * Real.sin θ * Real.sqrt (Real.cos θ) : ℝ) : ℂ) *
            ((2 * j1f (cJ * Real.sin θ) / (cJ * Real.sin θ) -
              j0f (cJ * Real.sin θ) : ℝ) : ℂ))) ∧
      (∀ (j0f j1f : ℝ → ℝ) (w θ : ℝ), bessel_2 j0f j1f w 0 θ = some 0) ∧
      ∀ (p : Objective) (j0f j1f : ℝ → ℝ) (theta : List ℝ) (ci zp k z : ℝ),
        (∀ j, j < theta.length → (expW p ci zp k z (theta.getD j 0)).isSome ∧
            (tcoef2 p (theta.getD j 0)).isSome) →
        sum_I2 p j0f j1f theta ci zp k 0 z = some 0 := by
  refine ⟨?_, ?_, ?_⟩
  · intro j0f j1f w cJ θ hx hcos
    have hsc : sqrtcostheta θ = some ((Real.sqrt (Real.cos θ) : ℝ) : ℂ) := by
      rw [sqrtcostheta, npSqrt, if_neg (not_lt.mpr hcos), Option.map_some']
    have hb1 : bessel_1 j1f w cJ θ =
        some ((w : ℂ) * (j1f (cJ * Real.sin θ) : ℂ) * ((Real.sin θ : ℝ) : ℂ) *
          ((Real.sqrt (Real.cos θ) : ℝ) : ℂ)) := by
      rw [bessel_1, hsc, Option.map_some']
    have hb0 : bessel_0 j0f w cJ θ =
        some ((w : ℂ) * (j0f (cJ * Real.sin θ) : ℂ) * ((Real.sin θ : ℝ) : ℂ) *
          ((Real.sqrt (Real.cos θ) : ℝ) : ℂ)) := by
      rw [bessel_0, hsc, Option.map_some']
    have hcJ : cJ ≠ 0 := left_ne_zero_of_mul hx
    have hxC : ((cJ * Real.sin θ : ℝ) : ℂ) ≠ 0 := Complex.ofReal_ne_zero.mpr hx
    rw [bessel_2, if_neg hcJ, hb1, Option.map_some', hb0, oDiv_some_some,
      if_neg hxC, omap2_some_some]
    congr 1
    push_cast
    ring
  · intro j0f j1f w θ
    rw [bessel_2, if_pos rfl]
  · intro p j0f j1f theta ci zp k z h
    have hterms : ∀ x ∈ (List.range theta.length).map (fun j =>
        omap2 (· * ·) (expW p ci zp k z (theta.getD j 0))
          (scaled_2 p j0f j1f (sweight theta.length j) 0 (theta.getD j 0))),
        x = some 0 := by
      intro x hx
      obtain ⟨j, hj, rfl⟩ := List.mem_map.1 hx
      have hj' : j < theta.length := List.mem_range.1 hj
      obtain ⟨he, hc⟩ := h j hj'
      obtain ⟨e, he'⟩ := Option.isSome_iff_exists.1 he
      obtain ⟨c, hc'⟩ := Option.isSome_iff_exists.1 hc
      have hb2 : bessel_2 j0f j1f (sweight theta.length j) 0 (theta.getD j 0) =
          some 0 := by
        rw [bessel_2, if_pos rfl]
      rw [scaled_2, hb2, hc', omap2_some_some, he', omap2_some_some, zero_mul,
        mul_zero]
    rw [sum_I2, I2sum, osum_eq_zero hterms, Option.map_some', map_zero]

theorem foldl_max_init (ys : List ℝ) (a : ℝ) : a ≤ ys.foldl max a := by
  induction ys generalizing a with
  | nil => exact le_rfl
  | cons y ys ih => exact le_trans (le_max_left a y) (ih (max a y))

theorem foldl_max_mem (ys : List ℝ) (a x : ℝ) (h : x ∈ ys) :
    x ≤ ys.foldl max a := by
  induction ys generalizing a with
  | nil => cases h
  | cons y ys ih =>
    rcases List.mem_cons.1 h with rfl | h'
    · exact le_trans (le_max_right a x) (foldl_max_init ys (max a x))
    · exact ih (max a y) h'

/-- Every member of a list is at most `listMax` of the list. -/
theorem listMax_ge (l : List ℝ) (x : ℝ) (h : x ∈ l) : x ≤ listMax l := by
  cases l with
  | nil => cases h
  | cons y ys =>
    rcases List.mem_cons.1 h with rfl | h'
    · exact foldl_max_init ys x
    · exact foldl_max_mem ys y x h'

/-- C10: for every valid configuration (`0 < NA < ni`, positive pixel size
and wavelength, `nx, sf ≥ 1`), the quadrature sample count is a multiple of
4 and at least 60 (hence even), the final Simpson weight of 1 replaces a
pattern weight of 2 (the last index is odd), and every θ sample satisfies
`0 < θ ≤ half_angle`. -/
theorem c10_quadrature (p : Objective) (nx sf : ℕ) (pos : ℝ × ℝ × ℝ)
    (dxy wvl : ℝ) (hna : 0 < p.na) (hni : p.na < p.ni) (hnx : 1 ≤ nx)
    (hsf : 1 ≤ sf) (hdxy : 0 < dxy) (hwvl : 0 < wvl) :
    ∃ ha, p.half_angle = some ha ∧
      4 ∣ rz_nSamples ha (rz_constJ nx sf pos dxy wvl p) ∧
      60 ≤ rz_nSamples ha (rz_constJ nx sf pos dxy wvl p) ∧
      2 ∣ rz_nSamples ha (rz_constJ nx sf pos dxy wvl p) ∧
      ((List.range (rz_nSamples ha (rz_constJ nx sf pos dxy wvl p)).toNat).map
          (fun i => if i % 2 = 0 then (4 : ℝ) else 2)).get?
        ((rz_nSamples ha (rz_constJ nx sf pos dxy wvl p)).toNat - 1) =
          some 2 ∧
      ∀ θ ∈ rz_theta ha (rz_constJ nx sf pos dxy wvl p), 0 < θ ∧ θ ≤ ha := by
  have h0ni : 0 < p.ni := hna.trans hni
  have hdivpos : 0 < p.na / p.ni := div_pos hna h0ni
  have hdivlt : p.na / p.ni < 1 := (div_lt_one h0ni).2 hni
  have hhalf : p.half_angle = some (Real.arcsin (p.na / p.ni)) :=
    half_angle_some p (ne_of_gt h0ni)
      (by rw [abs_of_pos hdivpos]; exact le_of_lt hdivlt)
  have hapos : 0 < Real.arcsin (p.na / p.ni) := Real.arcsin_pos.2 hdivpos
  -- the radial vector is nonempty, and its first entry gives a zero `constJ`
  have hxymax : 0 ≤ rz_xymax nx sf := by
    have h1 : (1 : ℤ) ≤ (nx : ℤ) * (sf : ℤ) := by
      have := Nat.one_le_iff_ne_zero.1 (Nat.one_le_of_lt
        (Nat.lt_of_lt_of_le Nat.zero_lt_one (Nat.le_mul_of_pos_left 1 hnx)))
      exact_mod_cast Nat.one_le_iff_ne_zero.2 (by positivity)
    exact Int.fdiv_nonneg (by omega) (by norm_num)
  have hrn : 1 ≤ rz_rn pos sf dxy := by
    rw [rz_rn, npInt, if_pos (Real.sqrt_nonneg _)]
    have := Int.floor_nonneg.2 (Real.sqrt_nonneg
      ((pos.1 * sf / rz_xystep dxy) ^ 2 + (pos.2.1 * sf / rz_xystep dxy) ^ 2))
    omega
  have hrmax : 2 ≤ rz_rmax nx sf pos dxy := by
    rw [rz_rmax]
    have hceil : 0 ≤ ⌈Real.sqrt 2 * ((rz_xymax nx sf : ℤ) : ℝ)⌉ :=
      Int.ceil_nonneg (mul_nonneg (Real.sqrt_nonneg 2) (by exact_mod_cast hxymax))
    omega
  have hmem0 : rz_wave_num wvl * (((0 : ℕ) : ℝ) * rz_xystep dxy / (sf : ℝ)) *
      p.ni ∈ rz_constJ nx sf pos dxy wvl p := by
    refine List.mem_map.2 ⟨((0 : ℕ) : ℝ) * rz_xystep dxy / (sf : ℝ), ?_, rfl⟩
    refine List.mem_map.2 ⟨0, List.mem_range.2 ?_, rfl⟩
    omega
  have hmaxc : 0 ≤ listMax (rz_constJ nx sf pos dxy wvl p) := by
    have h := listMax_ge _ _ hmem0
    have hz : rz_wave_num wvl * (((0 : ℕ) : ℝ) * rz_xystep dxy / (sf : ℝ)) *
        p.ni = 0 := by
      push_cast
      ring
    linarith
  have harg : (1 : ℝ) ≤ 1 + Real.arcsin (p.na / p.ni) *
      listMax (rz_constJ nx sf pos dxy wvl p) / Real.pi := by
    have := div_nonneg (mul_nonneg (le_of_lt hapos) hmaxc) Real.pi_pos.le
    linarith
  have hfloor : 1 ≤ npInt (1 + Real.arcsin (p.na / p.ni) *
      listMax (rz_constJ nx sf pos dxy wvl p) / Real.pi) := by
    rw [npInt, if_pos (by linarith)]
    exact Int.le_floor.2 (by exact_mod_cast harg)
  have hA : 60 ≤ rz_nSamples (Real.arcsin (p.na / p.ni))
      (rz_constJ nx sf pos dxy wvl p) := le_max_right _ _
  have hB : 4 ∣ rz_nSamples (Real.arcsin (p.na / p.ni))
      (rz_constJ nx sf pos dxy wvl p) := by
    rw [rz_nSamples]
    rcases max_choice (4 * npInt (1 + Real.arcsin (p.na / p.ni) *
        listMax (rz_constJ nx sf pos dxy wvl p) / Real.pi)) 60 with h | h <;>
      rw [h]
    · exact Dvd.intro _ rfl
    · exact ⟨15, by norm_num⟩
  have hC : 2 ∣ rz_nSamples (Real.arcsin (p.na / p.ni))
      (rz_constJ nx sf pos dxy wvl p) := dvd_trans ⟨2, by norm_num⟩ hB
  have hnpos : (0 : ℤ) < rz_nSamples (Real.arcsin (p.na / p.ni))
      (rz_constJ nx sf pos dxy wvl p) := by omega
  have hcastpos : (0 : ℝ) < ((rz_nSamples (Real.arcsin (p.na / p.ni))
      (rz_constJ nx sf pos dxy wvl p) : ℤ) : ℝ) := by exact_mod_cast hnpos
  refine ⟨Real.arcsin (p.na / p.ni), hhalf, hB, hA, hC, ?_, ?_⟩
  · have hN : (rz_nSamples (Real.arcsin (p.na / p.ni))
        (rz_constJ nx sf pos dxy wvl p)).toNat % 2 = 0 ∧
        60 ≤ (rz_nSamples (Real.arcsin (p.na / p.ni))
          (rz_constJ nx sf pos dxy wvl p)).toNat := by omega
    rw [List.get?_eq_getElem?, List.getElem?_map,
      List.getElem?_range (by omega), Option.map_some', if_neg (by omega)]
  · intro θ hθ
    obtain ⟨j, hj, rfl⟩ := List.mem_map.1 hθ
    have hjr : j < (rz_nSamples (Real.arcsin (p.na / p.ni))
        (rz_constJ nx sf pos dxy wvl p)).toNat := List.mem_range.1 hj
    have hstep : 0 < rz_step (Real.arcsin (p.na / p.ni))
        (rz_constJ nx sf pos dxy wvl p) := div_pos hapos hcastpos
    constructor
    · have : (0 : ℝ) < (j : ℝ) + 1 := by positivity
      exact mul_pos this hstep
    · have hle : ((j : ℝ) + 1) ≤ ((rz_nSamples (Real.arcsin (p.na / p.ni))
          (rz_constJ nx sf pos dxy wvl p) : ℤ) : ℝ) := by
        have h1 : (j : ℤ) + 1 ≤ rz_nSamples (Real.arcsin (p.na / p.ni))
            (rz_constJ nx sf pos dxy wvl p) := by omega
        exact_mod_cast h1
      have h2 := mul_le_mul_of_nonneg_right hle (le_of_lt hstep)
      calc ((j : ℝ) + 1) * rz_step (Real.arcsin (p.na / p.ni))
            (rz_constJ nx sf pos dxy wvl p) ≤ _ := h2
        _ = Real.arcsin (p.na / p.ni) := by
            rw [rz_step, mul_comm, div_mul_cancel₀ _ (ne_of_gt hcastpos)]

/-- C10 (witness at `NA = 1.2`, default `ni = 1.515`, `nx = sf = 1`,
`dxy = 0.05`, `wvl = 0.6`). -/
theorem c10_quadrature_witness :
    ∃ ha, ({ na := 1.2 } : Objective).half_angle = some ha ∧
      4 ∣ rz_nSamples ha (rz_constJ 1 1 (0, 0, 0) 0.05 0.6 { na := 1.2 }) ∧
      60 ≤ rz_nSamples ha (rz_constJ 1 1 (0, 0, 0) 0.05 0.6 { na := 1.2 }) ∧
      2 ∣ rz_nSamples ha (rz_constJ 1 1 (0, 0, 0) 0.05 0.6 { na := 1.2 }) ∧
      ((List.range (rz_nSamples ha
            (rz_constJ 1 1 (0, 0, 0) 0.05 0.6 { na := 1.2 })).toNat).map
          (fun i => if i % 2 = 0 then (4 : ℝ) else 2)).get?
        ((rz_nSamples ha
            (rz_constJ 1 1 (0, 0, 0) 0.05 0.6 { na := 1.2 })).toNat - 1) =
          some 2 ∧
      ∀ θ ∈ rz_theta ha (rz_constJ 1 1 (0, 0, 0) 0.05 0.6 { na := 1.2 }),
        0 < θ ∧ θ ≤ ha :=
  c10_quadrature { na := 1.2 } 1 1 (0, 0, 0) 0.05 0.6 (by norm_num)
    (by norm_num [Objective.ni]) (by norm_num) (by norm_num) (by norm_num)
    (by norm_num)

/-- With `nx, sf ≥ 1` the radial vector always has at least two entries. -/
theorem rz_rmax_ge_two (nx sf : ℕ) (pos : ℝ × ℝ × ℝ) (dxy : ℝ) (hnx : 1 ≤ nx)
    (hsf : 1 ≤ sf) : 2 ≤ rz_rmax nx sf pos dxy := by
  have hxymax : 0 ≤ rz_xymax nx sf := by
    have h1 : (1 : ℤ) ≤ (nx : ℤ) * (sf : ℤ) := by
      have : 1 ≤ nx * sf := Nat.one_le_iff_ne_zero.2 (Nat.mul_ne_zero (by omega) (by omega))
      exact_mod_cast this
    exact Int.fdiv_nonneg (by omega) (by norm_num)
  have hrn : 1 ≤ rz_rn pos sf dxy := by
    rw [rz_rn, npInt, if_pos (Real.sqrt_nonneg _)]
    have := Int.floor_nonneg.2 (Real.sqrt_nonneg
      ((pos.1 * sf / rz_xystep dxy) ^ 2 + (pos.2.1 * sf / rz_xystep dxy) ^ 2))
    omega
  have hceil : 0 ≤ ⌈Real.sqrt 2 * ((rz_xymax nx sf : ℤ) : ℝ)⌉ :=
    Int.ceil_nonneg (mul_nonneg (Real.sqrt_nonneg 2) (by exact_mod_cast hxymax))
  rw [rz_rmax]
  omega

/-- The last θ sample is exactly the half-angle: `nSamples * (ha / nSamples)`. -/
theorem rz_theta_getD_last (ha : ℝ) (constJ : List ℝ) :
    (rz_theta ha constJ).getD ((rz_nSamples ha constJ).toNat - 1) 0 = ha := by
  have h60 : (60 : ℤ) ≤ rz_nSamples ha constJ := le_max_right _ _
  have hN : 1 ≤ (rz_nSamples ha constJ).toNat := by omega
  rw [rz_theta, List.getD_eq_getElem?_getD, List.getElem?_map,
    List.getElem?_range (by omega), Option.map_some', Option.getD_some]
  have hc : (((rz_nSamples ha constJ).toNat - 1 : ℕ) : ℝ) + 1 =
      ((rz_nSamples ha constJ : ℤ) : ℝ) := by
    rw [Nat.cast_sub hN]
    have : (((rz_nSamples ha constJ).toNat : ℕ) : ℝ) =
        ((rz_nSamples ha constJ : ℤ) : ℝ) := by
      exact_mod_cast congrArg (Int.cast : ℤ → ℝ)
        (Int.toNat_of_nonneg (by omega))
    rw [this]
    ring
  have hne : ((rz_nSamples ha constJ : ℤ) : ℝ) ≠ 0 := by
    have : (0 : ℤ) < rz_nSamples ha constJ := by omega
    exact_mod_cast ne_of_gt this
  rw [hc, rz_step, mul_comm]
  exact div_mul_cancel₀ ha hne

/-- If the real square root `nsroot` is NaN at some θ sample, the whole
`simpson` cell is NaN. -/
theorem simpsonEntry_eq_none (p : Objective) (j0f j1f : ℝ → ℝ)
    (theta : List ℝ) (ci zp k cJ z : ℝ) (j : ℕ) (hj : j < theta.length)
    (hns : nsroot p (theta.getD j 0) = none) :
    simpsonEntry p j0f j1f theta ci zp k cJ z = none := by
  have htc : tcoef0 p (theta.getD j 0) = none := by
    rw [tcoef0, hns]
    simp
  have hterm : omap2 (· * ·) (expW p ci zp k z (theta.getD j 0))
      (scaled_0 p j0f (sweight theta.length j) cJ (theta.getD j 0)) = none := by
    rw [scaled_0, htc, omap2_none_right, omap2_none_right]
  have hmem : none ∈ (List.range theta.length).map fun jj =>
      omap2 (· * ·) (expW p ci zp k z (theta.getD jj 0))
        (scaled_0 p j0f (sweight theta.length jj) cJ (theta.getD jj 0)) := by
    rw [← hterm]
    exact List.mem_map_of_mem _ (List.mem_range.2 hj)
  rw [simpsonEntry, sum_I0, I0sum, osum_eq_none hmem]
  simp

/-- C1: the claim says every square root is evaluated as complex, so that
beyond-critical-angle configurations still give a finite, non-negative
profile.  In fact `np.sqrt` is applied to REAL arrays: with a water-like
specimen (`ns = 1.33 < NA = 1.4`, oil immersion `ni = 1.515`) the radicand
`ns² − ni²·sin²θ` is negative at the last θ sample (where `sinθ = NA/ni`),
the root is NaN, and the returned profile contains NaN — for every Bessel
provider `j0f`, `j1f`. -/
theorem c1_real_sqrt_nan (j0f j1f : ℝ → ℝ) :
    ∃ M, vectorial_rz j0f j1f [0] 1 (0, 0, 0) 0.05 0.6
        { specimen_ri := 1.33 } 1 = .ok M ∧
      M.head?.bind List.head? = some none := by
  have hha : ({ specimen_ri := 1.33 } : Objective).half_angle =
      some (Real.arcsin (({ specimen_ri := 1.33 } : Objective).na /
        ({ specimen_ri := 1.33 } : Objective).ni)) :=
    half_angle_some _ (by norm_num [Objective.ni])
      (by rw [abs_of_nonneg (by norm_num [Objective.ni])]
          norm_num [Objective.ni])
  refine ⟨_, by rw [vectorial_rz, hha], ?_⟩
  have hsin : Real.sin (Real.arcsin (({ specimen_ri := 1.33 } : Objective).na /
      ({ specimen_ri := 1.33 } : Objective).ni)) =
      ({ specimen_ri := 1.33 } : Objective).na /
        ({ specimen_ri := 1.33 } : Objective).ni :=
    Real.sin_arcsin (by norm_num [Objective.ni]) (by norm_num [Objective.ni])
  have hns : nsroot { specimen_ri := 1.33 }
      (Real.arcsin (({ specimen_ri := 1.33 } : Objective).na /
        ({ specimen_ri := 1.33 } : Objective).ni)) = none := by
    rw [nsroot, hsin, npSqrt, if_pos]
    norm_num [Objective.ns, Objective.ni]
  have hentry : ∀ cJ z : ℝ, simpsonEntry { specimen_ri := 1.33 } j0f j1f
      (rz_theta (Real.arcsin (({ specimen_ri := 1.33 } : Objective).na /
          ({ specimen_ri := 1.33 } : Objective).ni))
        (rz_constJ 1 1 (0, 0, 0) 0.05 0.6 { specimen_ri := 1.33 }))
      (rz_ci { specimen_ri := 1.33 } ((0, 0, 0) : ℝ × ℝ × ℝ).2.2)
      ((0, 0, 0) : ℝ × ℝ × ℝ).2.2 (rz_wave_num 0.6) cJ z = none := by
    intro cJ z
    have hlen : (rz_theta (Real.arcsin
        (({ specimen_ri := 1.33 } : Objective).na /
          ({ specimen_ri := 1.33 } : Objective).ni))
        (rz_constJ 1 1 (0, 0, 0) 0.05 0.6 { specimen_ri := 1.33 })).length =
        (rz_nSamples (Real.arcsin (({ specimen_ri := 1.33 } : Objective).na /
          ({ specimen_ri := 1.33 } : Objective).ni))
          (rz_constJ 1 1 (0, 0, 0) 0.05 0.6 { specimen_ri := 1.33 })).toNat := by
      rw [rz_theta, List.length_map, List.length_range]
    have h60 : (60 : ℤ) ≤ rz_nSamples (Real.arcsin
        (({ specimen_ri := 1.33 } : Objective).na /
          ({ specimen_ri := 1.33 } : Objective).ni))
        (rz_constJ 1 1 (0, 0, 0) 0.05 0.6 { specimen_ri := 1.33 }) :=
      le_max_right _ _
    refine simpsonEntry_eq_none _ _ _ _ _ _ _ _ _
      ((rz_nSamples (Real.arcsin (({ specimen_ri := 1.33 } : Objective).na /
          ({ specimen_ri := 1.33 } : Objective).ni))
        (rz_constJ 1 1 (0, 0, 0) 0.05 0.6 { specimen_ri := 1.33 })).toNat - 1)
      (by rw [hlen]; omega) ?_
    rw [rz_theta_getD_last]
    exact hns
  have hhead : (rz_constJ 1 1 (0, 0, 0) 0.05 0.6
      { specimen_ri := 1.33 }).head? =
      some (rz_wave_num 0.6 * (((0 : ℕ) : ℝ) * rz_xystep 0.05 / ((1 : ℕ) : ℝ)) *
        ({ specimen_ri := 1.33 } : Objective).ni) := by
    obtain ⟨N', hN'⟩ : ∃ N',
        (rz_rmax 1 1 (0, 0, 0) 0.05).toNat = N' + 1 := by
      have := rz_rmax_ge_two 1 1 (0, 0, 0) 0.05 (by norm_num) (by norm_num)
      exact ⟨(rz_rmax 1 1 (0, 0, 0) 0.05).toNat - 1, by omega⟩
    rw [rz_constJ, rz_rvec, hN', List.range_succ_eq_map, List.map_cons,
      List.map_cons, List.head?_cons]
  simp only [simpson, List.map_cons, List.map_nil, List.head?_cons,
    Option.some_bind, List.map_map, List.head?_map, hhead, Option.map_some',
    Function.comp_apply, hentry, Option.map_none']

/-- C8 (counterexample): the integrator cell is claimed to be a non-negative
real value for every input; at the sample θ = π/2 with a water specimen
(`ns = 1.33`, `ni = 1.515`) the radicand `ns² − ni²` is negative, so the
cell is NaN, not a non-negative real. -/
theorem c8_counterexample :
    simpsonEntry { specimen_ri := 1.33 } (fun _ => 0) (fun _ => 0)
      [Real.pi / 2] 0 1 1 1 0 = none := by
  refine simpsonEntry_eq_none _ _ _ _ _ _ _ _ _ 0 (by norm_num) ?_
  show nsroot _ (([Real.pi / 2] : List ℝ).getD 0 0) = none
  rw [List.getD_eq_getElem?_getD]
  norm_num
  rw [nsroot, Real.sin_pi_div_two, npSqrt, if_pos]
  norm_num [Objective.ns, Objective.ni]

/-- C8 (amended): the output of `simpson` has shape `(|zv|, |constJ|)`, and
each cell is either NaN (when a negative radicand or the on-axis `0/0`
poisons it) or exactly `sum0² + 2·sum1² + sum2²` with `sum_k` the magnitude
of the θ-wise weighted phase-modulated channel sum — a non-negative value. -/
theorem c8_shape_and_value (p : Objective) (j0f j1f : ℝ → ℝ)
    (theta constJ zv : List ℝ) (ci zp k : ℝ) :
    (simpson p j0f j1f theta constJ zv ci zp k).length = zv.length ∧
      (∀ row ∈ simpson p j0f j1f theta constJ zv ci zp k,
        row.length = constJ.length) ∧
      ∀ cJ z : ℝ, simpsonEntry p j0f j1f theta ci zp k cJ z = none ∨
        ∃ s0 s1 s2 : ℂ, I0sum p j0f theta ci zp k cJ z = some s0 ∧
          I1sum p j1f theta ci zp k cJ z = some s1 ∧
          I2sum p j0f j1f theta ci zp k cJ z = some s2 ∧
          simpsonEntry p j0f j1f theta ci zp k cJ z =
            some (Complex.abs s0 ^ 2 + 2 * Complex.abs s1 ^ 2 +
              Complex.abs s2 ^ 2) ∧
          0 ≤ Complex.abs s0 ^ 2 + 2 * Complex.abs s1 ^ 2 +
            Complex.abs s2 ^ 2 := by
  refine ⟨by rw [simpson, List.length_map], ?_, ?_⟩
  · intro row hrow
    obtain ⟨z, hz, rfl⟩ := List.mem_map.1 hrow
    exact List.length_map _ _
  · intro cJ z
    rcases h0 : I0sum p j0f theta ci zp k cJ z with _ | s0
    · left
      rw [simpsonEntry, sum_I0, h0]
      simp
    rcases h1 : I1sum p j1f theta ci zp k cJ z with _ | s1
    · left
      rw [simpsonEntry, sum_I1, h1]
      simp
    rcases h2 : I2sum p j0f j1f theta ci zp k cJ z with _ | s2
    · left
      rw [simpsonEntry, sum_I2, h2]
      simp
    right
    refine ⟨s0, s1, s2, rfl, rfl, rfl, ?_, by positivity⟩
    rw [simpsonEntry, sum_I0, h0, sum_I1, h1, sum_I2, h2]
    simp only [Option.map_some', omap2_some_some]

/-- C8 (witness for the amended theorem, at an empty θ/radius sampling and a
single z plane). -/
theorem c8_shape_and_value_witness :
    (([] : List (Option ℝ)) ∈
        simpson {} (fun _ => 0) (fun _ => 0) [] [] [0] 0 0 0) ∧
      ([] : List (Option ℝ)).length = ([] : List ℝ).length :=
  ⟨by simp [simpson],
    (c8_shape_and_value {} (fun _ => 0) (fun _ => 0) [] [] [0] 0 0 0).2.1 []
      (by simp [simpson])⟩

theorem oDiv_some_right (e : Option ℝ) (m : ℝ) (hm : m ≠ 0) :
    oDiv e (some m) = e.map fun v => v / m := by
  cases e
  · rfl
  · rw [oDiv_some_some, if_neg hm, Option.map_some']

theorem listMaxO_foldl_map_div (m : ℝ) (hm : 0 < m) (xs : List (Option ℝ))
    (acc : Option ℝ) :
    (xs.map (Option.map fun v => v / m)).foldl (omap2 max)
        (acc.map fun v => v / m) =
      (xs.foldl (omap2 max) acc).map fun v => v / m := by
  induction xs generalizing acc with
  | nil => rfl
  | cons x xs ih =>
    rw [List.map_cons, List.foldl_cons, List.foldl_cons, ← ih]
    congr 1
    cases acc <;> cases x <;> simp [max_div_div_right hm.le]

/-- Dividing every entry by a positive constant commutes with `np.max`. -/
theorem listMaxO_map_div (l : List (Option ℝ)) (m : ℝ) (hm : 0 < m) :
    listMaxO (l.map (Option.map fun v => v / m)) =
      (listMaxO l).map fun v => v / m := by
  cases l with
  | nil => rfl
  | cons x xs =>
    simp only [List.map_cons, listMaxO]
    exact listMaxO_foldl_map_div m hm xs x

/-- C9: when `vectorial_psf` is called with `normalize = true` and the
unnormalized volume has a positive global maximum `m`, the returned volume
is the unnormalized one with every entry divided by `m`, and its global
maximum is exactly 1. -/
theorem c9_normalize (mapc : MapC) (j0f j1f : ℝ → ℝ) (zvIn : List ℝ) (nx : ℕ)
    (nyIn : Option ℕ) (pos : ℝ × ℝ × ℝ) (dxy wvl : ℝ) (p : Objective) (sf : ℕ)
    (V : List (List (List (Option ℝ)))) (m : ℝ)
    (hraw : vectorial_psf mapc j0f j1f zvIn nx nyIn pos dxy wvl p sf false =
      .ok V)
    (hmax : volMax V = some m) (hm : 0 < m) :
    vectorial_psf mapc j0f j1f zvIn nx nyIn pos dxy wvl p sf true =
        .ok (V.map (List.map (List.map (Option.map fun v => v / m)))) ∧
      volMax (V.map (List.map (List.map (Option.map fun v => v / m)))) =
        some 1 := by
  have hfun : (fun e : Option ℝ => oDiv e (some m)) =
      Option.map fun v : ℝ => v / m :=
    funext fun e => oDiv_some_right e m (ne_of_gt hm)
  have hmax1 : volMax (V.map (List.map (List.map (Option.map fun v => v / m)))) =
      some 1 := by
    rw [volMax, ← List.map_flatten, ← List.map_flatten,
      listMaxO_map_div _ _ hm]
    rw [volMax] at hmax
    rw [hmax, Option.map_some', div_self (ne_of_gt hm)]
  refine ⟨?_, hmax1⟩
  rw [vectorial_psf.eq_def] at hraw ⊢
  rcases hrz : vectorial_rz j0f j1f (zvIn.map fun z => z * 1e-6)
      (max (pyOr nyIn nx) nx) pos dxy wvl p sf with e | rz
  · rw [hrz] at hraw
    exact absurd hraw (by simp)
  · rw [hrz] at hraw
    dsimp only at hraw ⊢
    rcases hxyz : rz_to_xyz mapc rz (pyOr nyIn nx, nx) sf
        (some (pos.1 / (dxy * 1e-6), pos.2.1 / (dxy * 1e-6)))
        with e2 | psf
    · rw [hxyz] at hraw
      exact absurd hraw (by simp)
    · rw [hxyz] at hraw
      simp at hraw
      subst hraw
      dsimp only
      rw [hmax, hfun]
      rfl

/-- C9 (witness: a provider whose interpolator returns the constant 1 gives
the all-ones 1×1×1 volume, whose maximum 1 is positive; normalization
divides by it and the result has maximum exactly 1). -/
theorem c9_normalize_witness :
    vectorial_psf (fun _ _ _ => some 1) (fun _ => 0) (fun _ => 0) [0] 1 none
        (0, 0, 0) 0.05 0.6 { na := 1.2 } 1 true =
        .ok (([[[some (1 : ℝ)]]]).map
          (List.map (List.map (Option.map fun v => v / 1)))) ∧
      volMax (([[[some (1 : ℝ)]]]).map
        (List.map (List.map (Option.map fun v => v / 1)))) = some 1 := by
  have hha : ({ na := 1.2 } : Objective).half_angle =
      some (Real.arcsin (({ na := 1.2 } : Objective).na /
        ({ na := 1.2 } : Objective).ni)) :=
    half_angle_some _ (by norm_num [Objective.ni])
      (by rw [abs_of_nonneg (by norm_num [Objective.ni])]
          norm_num [Objective.ni])
  obtain ⟨rz, hrz, hlen⟩ : ∃ rz, vectorial_rz (fun _ => (0 : ℝ))
      (fun _ => (0 : ℝ)) (([0] : List ℝ).map fun z => z * 1e-6)
      (max (pyOr none 1) 1)
      (0, 0, 0) 0.05 0.6 { na := 1.2 } 1 = .ok rz ∧ rz.length = 1 := by
    refine ⟨_, by rw [vectorial_rz, hha], ?_⟩
    simp [simpson]
  have hraw : vectorial_psf (fun _ _ _ => some 1) (fun _ => 0) (fun _ => 0)
      [0] 1 none (0, 0, 0) 0.05 0.6 { na := 1.2 } 1 false =
      .ok [[[some (1 : ℝ)]]] := by
    rw [vectorial_psf.eq_def, hrz]
    dsimp only
    rw [rz_to_xyz.eq_def, radius_map.eq_def]
    simp [hlen, pyOr, show List.range 1 = [0] from rfl]
  exact c9_normalize _ _ _ _ _ _ _ _ _ _ _ [[[some (1 : ℝ)]]] 1 hraw
    (by simp [volMax, listMaxO]) (by norm_num)

theorem L0_isSome (p : Objective) (ci zp z θ : ℝ)
    (h1 : 0 ≤ p.ns ^ 2 - p.ni ^ 2 * Real.sin θ ^ 2)
    (h2 : 0 ≤ p.ng ^ 2 - p.ni ^ 2 * Real.sin θ ^ 2)
    (h3 : 0 ≤ p.ng0 ^ 2 - p.ni ^ 2 * Real.sin θ ^ 2)
    (h4 : 0 ≤ p.ni0 ^ 2 - p.ni ^ 2 * Real.sin θ ^ 2) :
    (L0 p ci zp z θ).isSome := by
  rw [L0, nsroot, ngroot, ng0root, ni0root, npSqrt, npSqrt, npSqrt, npSqrt,
    if_neg (not_lt.mpr h1), if_neg (not_lt.mpr h2), if_neg (not_lt.mpr h3),
    if_neg (not_lt.mpr h4)]
  simp only [Option.map_some', omap2_some_some]
  rfl

theorem expW_isSome (p : Objective) (ci zp k z θ : ℝ)
    (h1 : 0 ≤ p.ns ^ 2 - p.ni ^ 2 * Real.sin θ ^ 2)
    (h2 : 0 ≤ p.ng ^ 2 - p.ni ^ 2 * Real.sin θ ^ 2)
    (h3 : 0 ≤ p.ng0 ^ 2 - p.ni ^ 2 * Real.sin θ ^ 2)
    (h4 : 0 ≤ p.ni0 ^ 2 - p.ni ^ 2 * Real.sin θ ^ 2) :
    (expW p ci zp k z θ).isSome := by
  rw [expW]
  rcases Option.isSome_iff_exists.1 (L0_isSome p ci zp z θ h1 h2 h3 h4)
    with ⟨v, hv⟩
  rw [hv, Option.map_some']
  rfl

/-- C6 (witness for the amended theorem): the recurrence at θ = π/2 where
`x = 1 ≠ 0`, and the zero contribution of the radius-0 channel for the
default objective over the sample list `[0]`. -/
theorem c6_amended_witness :
    bessel_2 (fun _ => 0) (fun _ => 0) 1 1 (Real.pi / 2) =
        some (((1 * Real.sin (Real.pi / 2) *
          Real.sqrt (Real.cos (Real.pi / 2)) : ℝ) : ℂ) *
          ((2 * (0 : ℝ) / (1 * Real.sin (Real.pi / 2)) - 0 : ℝ) : ℂ)) ∧
      sum_I2 {} (fun _ => 0) (fun _ => 0) [0] 0 0 0 0 0 = some 0 := by
  constructor
  · exact c6_amended.1 (fun _ => 0) (fun _ => 0) 1 1 (Real.pi / 2)
      (by rw [Real.sin_pi_div_two, mul_one]; norm_num)
      (by rw [Real.cos_pi_div_two])
  · refine c6_amended.2.2 {} (fun _ => 0) (fun _ => 0) [0] 0 0 0 0 ?_
    intro j hj
    have hj0 : j = 0 := by simpa using hj
    subst hj0
    show (expW {} 0 0 0 0 0).isSome ∧ (tcoef2 {} 0).isSome
    constructor
    · exact expW_isSome {} 0 0 0 0 0
        (by norm_num [Objective.ns, Objective.ni, Real.sin_zero])
        (by norm_num [Objective.ng, Objective.ni, Real.sin_zero])
        (by norm_num [Objective.ng0, Objective.ni, Real.sin_zero])
        (by norm_num [Objective.ni0, Objective.ni, Real.sin_zero])
    · have hns : nsroot ({} : Objective) 0 = some 1.47 := by
        rw [nsroot, Real.sin_zero, npSqrt,
          if_neg (by norm_num [Objective.ns, Objective.ni])]
        congr 1
        rw [show ({} : Objective).ns ^ 2 - ({} : Objective).ni ^ 2 * (0 : ℝ) ^ 2
            = 1.47 ^ 2 by norm_num [Objective.ns, Objective.ni]]
        exact Real.sqrt_sq (by norm_num)
      have hng : ngroot ({} : Objective) 0 = some 1.515 := by
        rw [ngroot, Real.sin_zero, npSqrt,
          if_neg (by norm_num [Objective.ng, Objective.ni])]
        congr 1
        rw [show ({} : Objective).ng ^ 2 - ({} : Objective).ni ^ 2 * (0 : ℝ) ^ 2
            = 1.515 ^ 2 by norm_num [Objective.ng, Objective.ni]]
        exact Real.sqrt_sq (by norm_num)
      have hts : ∃ s, ts1ts2 ({} : Objective) 0 = some s := by
        rw [ts1ts2, fresnel_num, hng, hns, Option.map_some', omap2_some_some,
          oDiv_some_some, if_neg (Complex.ofReal_ne_zero.mpr
            (by norm_num [Objective.ni, Real.cos_zero]))]
        exact ⟨_, rfl⟩
      have htp : ∃ t, tp1tp2 ({} : Objective) 0 = some t := by
        rw [tp1tp2, fresnel_num, hng, hns, Option.map_some', Option.map_some',
          omap2_some_some, omap2_some_some, oDiv_some_some,
          if_neg (mul_ne_zero
            (Complex.ofReal_ne_zero.mpr
              (by norm_num [Objective.ng, Objective.ni, Real.cos_zero]))
            (Complex.ofReal_ne_zero.mpr
              (by norm_num [Objective.ns, Objective.ng])))]
        exact ⟨_, rfl⟩
      obtain ⟨s, hs⟩ := hts
      obtain ⟨t, ht⟩ := htp
      rw [tcoef2, hs, ht, hns, Option.map_some', oDiv_some_some,
        if_neg (Complex.ofReal_ne_zero.mpr (by norm_num [Objective.ns])),
        omap2_some_some, omap2_some_some]
      rfl

end PSF
